import Mathlib

/-!
Verification of the in-memory category-prefixed key-value store
(`src/components/database/src/memory.rs`, `MemoryDB`).

The backing `HashMap<Vec<u8>, Vec<u8>>` is embedded as a function
`List Nat → Option (List Nat)` (a byte is a `Nat`; the map sends a
composite key to the stored record, or `none`).  Each `Database`
operation wraps its map access in a future that first acquires the
`RwLock`; lock acquisition can fail (a poisoned lock), which the code
maps to `DatabaseError::Internal`.  We make that explicit with a
`lockOk : Bool` argument: `true` means the lock was acquired, `false`
means acquisition failed.  Every operation returns the pair of its
result (`Except DatabaseError α`) and the post-state of the map.
-/

namespace Muta

/-- A byte string (`Vec<u8>`). -/
abbrev Bytes := List Nat

/-- The backing map (`HashMap<Vec<u8>, Vec<u8>>`), as a function from
composite keys to stored records. -/
def Store := Bytes → Option Bytes

/-- `DataCategory` from `core_runtime`, matched on by `gen_key`. -/
inductive DataCategory
  | Block
  | Transaction
  | Receipt
  | State
  | TransactionPool
  | TransactionPosition
deriving DecidableEq, Repr

/-- `DatabaseError` from `core_runtime`: the two kinds this component
produces. -/
inductive DatabaseError
  | InvalidData
  | Internal (msg : String)
deriving DecidableEq, Repr

/-- `map_rwlock_err()`: the error produced when the `RwLock` is poisoned. -/
def map_rwlock_err : DatabaseError := .Internal "rwlock error"

/-- ASCII bytes of a string literal, the meaning of a Rust `b"..."`
byte-string literal for an ASCII string. -/
def asciiBytes (s : String) : Bytes := s.data.map (fun ch => ch.toNat)

/-- `gen_key`: prepend the category's literal prefix to the raw key
(`[b"block-".to_vec(), key].concat()` and friends). -/
def gen_key (c : DataCategory) (key : Bytes) : Bytes :=
  match c with
  | .Block => asciiBytes "block-" ++ key
  | .Transaction => asciiBytes "transaction-" ++ key
  | .Receipt => asciiBytes "receipt-" ++ key
  | .State => asciiBytes "state-" ++ key
  | .TransactionPool => asciiBytes "transaction-pool-" ++ key
  | .TransactionPosition => asciiBytes "transaction-position-" ++ key

/-- `gen_keys`: `keys.into_iter().map(|key| gen_key(c, key)).collect()`. -/
def gen_keys (c : DataCategory) (keys : List Bytes) : List Bytes :=
  keys.map (fun key => gen_key c key)

/-- `HashMap::insert`: store `v` under `k`, overwriting any previous
record. -/
def rawInsert (s : Store) (k v : Bytes) : Store :=
  fun x => if x = k then some v else s x

/-- `HashMap::remove`: drop the record under `k` if present. -/
def rawRemove (s : Store) (k : Bytes) : Store :=
  fun x => if x = k then none else s x

/-- The `for i in 0..keys.len()` loop body of `insert_batch`, applied to
the zipped key/value pairs in input order. -/
def insertList (s : Store) : List (Bytes × Bytes) → Store
  | [] => s
  | (k, v) :: rest => insertList (rawInsert s k v) rest

/-- The `for key in keys` loop of `remove_batch`. -/
def removeList (s : Store) : List Bytes → Store
  | [] => s
  | k :: rest => removeList (rawRemove s k) rest

/-- `MemoryDB::get`: read-lock, look the composite key up, return a copy. -/
def get (lockOk : Bool) (c : DataCategory) (key : Bytes) (s : Store) :
    Except DatabaseError (Option Bytes) × Store :=
  let k := gen_key c key
  if lockOk then (.ok (s k), s) else (.error map_rwlock_err, s)

/-- `MemoryDB::get_batch`: read-lock once, look every composite key up
independently. -/
def get_batch (lockOk : Bool) (c : DataCategory) (keys : List Bytes) (s : Store) :
    Except DatabaseError (List (Option Bytes)) × Store :=
  let ks := gen_keys c keys
  if lockOk then (.ok (ks.map (fun k => s k)), s) else (.error map_rwlock_err, s)

/-- `MemoryDB::insert`: write-lock, store the record under the composite
key. -/
def insert (lockOk : Bool) (c : DataCategory) (key value : Bytes) (s : Store) :
    Except DatabaseError Unit × Store :=
  let k := gen_key c key
  if lockOk then (.ok (), rawInsert s k value) else (.error map_rwlock_err, s)

/-- `MemoryDB::insert_batch`: the length check runs before the write lock
is taken; then every key/value pair is inserted in input order. -/
def insert_batch (lockOk : Bool) (c : DataCategory) (keys values : List Bytes)
    (s : Store) : Except DatabaseError Unit × Store :=
  let ks := gen_keys c keys
  if ks.length ≠ values.length then (.error .InvalidData, s)
  else if lockOk then (.ok (), insertList s (ks.zip values))
  else (.error map_rwlock_err, s)

/-- `MemoryDB::contains`: read-lock, test membership of the composite key. -/
def contains (lockOk : Bool) (c : DataCategory) (key : Bytes) (s : Store) :
    Except DatabaseError Bool × Store :=
  let k := gen_key c key
  if lockOk then (.ok (s k).isSome, s) else (.error map_rwlock_err, s)

/-- `MemoryDB::remove`: write-lock, remove the composite key. -/
def remove (lockOk : Bool) (c : DataCategory) (key : Bytes) (s : Store) :
    Except DatabaseError Unit × Store :=
  let k := gen_key c key
  if lockOk then (.ok (), rawRemove s k) else (.error map_rwlock_err, s)

/-- `MemoryDB::remove_batch`: write-lock once, remove every composite key
in order. -/
def remove_batch (lockOk : Bool) (c : DataCategory) (keys : List Bytes)
    (s : Store) : Except DatabaseError Unit × Store :=
  let ks := gen_keys c keys
  if lockOk then (.ok (), removeList s ks) else (.error map_rwlock_err, s)

/-- `MemoryDB::new()`: the empty map. -/
def emptyStore : Store := fun _ => none

/-- The literal prefix bytes of a category, for stating prefix facts. -/
def tagOf (c : DataCategory) : Bytes :=
  match c with
  | .Block => asciiBytes "block-"
  | .Transaction => asciiBytes "transaction-"
  | .Receipt => asciiBytes "receipt-"
  | .State => asciiBytes "state-"
  | .TransactionPool => asciiBytes "transaction-pool-"
  | .TransactionPosition => asciiBytes "transaction-position-"

/-- `gen_key` is exactly prefix concatenation. -/
theorem gen_key_tag (c : DataCategory) (key : Bytes) :
    gen_key c key = tagOf c ++ key := by
  cases c <;> rfl

/-- The prefix bytes of `Block` are the ASCII bytes of `block-`. -/
theorem tagOf_Block : tagOf .Block = [98, 108, 111, 99, 107, 45] := by decide

/-- The prefix bytes of `Receipt` are the ASCII bytes of `receipt-`. -/
theorem tagOf_Receipt : tagOf .Receipt = [114, 101, 99, 101, 105, 112, 116, 45] := by
  decide

/-- Applying `removeList` deletes exactly the listed keys. -/
theorem removeList_apply (l : List Bytes) (s : Store) (key : Bytes) :
    removeList s l key = if key ∈ l then none else s key := by
  induction l generalizing s with
  | nil => simp [removeList]
  | cons a rest ih =>
    simp only [removeList, ih, rawRemove, List.mem_cons]
    by_cases h1 : key = a <;> by_cases h2 : key ∈ rest <;> simp [h1, h2]

/-- C1: for every category `c`, raw key `k` and value `v`, `insert(c,k,v)`
followed by `get(c,k)` on the resulting store returns `Some v`,
byte-for-byte the inserted value. -/
theorem insert_then_get_roundtrip (c : DataCategory) (k v : Bytes) (s : Store) :
    (get true c k (insert true c k v s).2).1 = .ok (some v) := by
  simp [get, insert, rawInsert]

/-- C3: the key encoder (a pure total Lean function) maps each of the six
categories to exactly the literal ASCII prefix of the spec's table, and the
composite key is that prefix concatenated with the raw key. -/
theorem gen_key_ascii_table (k : Bytes) :
    gen_key .Block k = [98, 108, 111, 99, 107, 45] ++ k
    ∧ gen_key .Transaction k
        = [116, 114, 97, 110, 115, 97, 99, 116, 105, 111, 110, 45] ++ k
    ∧ gen_key .Receipt k = [114, 101, 99, 101, 105, 112, 116, 45] ++ k
    ∧ gen_key .State k = [115, 116, 97, 116, 101, 45] ++ k
    ∧ gen_key .TransactionPool k
        = [116, 114, 97, 110, 115, 97, 99, 116, 105, 111, 110, 45,
           112, 111, 111, 108, 45] ++ k
    ∧ gen_key .TransactionPosition k
        = [116, 114, 97, 110, 115, 97, 99, 116, 105, 111, 110, 45,
           112, 111, 115, 105, 116, 105, 111, 110, 45] ++ k :=
  ⟨congrArg (· ++ k) (by decide), congrArg (· ++ k) (by decide),
   congrArg (· ++ k) (by decide), congrArg (· ++ k) (by decide),
   congrArg (· ++ k) (by decide), congrArg (· ++ k) (by decide)⟩

/-- C4: a `Transaction` raw key beginning with the bytes of `"pool-"`
produces the same composite key as the `TransactionPool` raw key that
remains, so the two collide: an insert under `Transaction` is visible to
`get` and `contains` under `TransactionPool`, and a `remove` under
`TransactionPool` deletes the `Transaction` entry. -/
theorem transaction_pool_collision (r v : Bytes) (s : Store) :
    gen_key .Transaction (asciiBytes "pool-" ++ r) = gen_key .TransactionPool r
    ∧ (get true .TransactionPool r
        (insert true .Transaction (asciiBytes "pool-" ++ r) v s).2).1
        = .ok (some v)
    ∧ (contains true .TransactionPool r
        (insert true .Transaction (asciiBytes "pool-" ++ r) v s).2).1
        = .ok true
    ∧ (get true .Transaction (asciiBytes "pool-" ++ r)
        (remove true .TransactionPool r
          (insert true .Transaction (asciiBytes "pool-" ++ r) v s).2).2).1
        = .ok none := by
  have h : gen_key .Transaction (asciiBytes "pool-" ++ r)
      = gen_key .TransactionPool r := by
    show asciiBytes "transaction-" ++ (asciiBytes "pool-" ++ r)
        = asciiBytes "transaction-pool-" ++ r
    rw [← List.append_assoc]
    exact congrArg (· ++ r) (by decide)
  refine ⟨h, ?_, ?_, ?_⟩ <;>
    simp [get, insert, remove, contains, rawInsert, rawRemove, h]

/-- C2: calling `insert_batch` with key and value lists of unequal lengths
fails with `InvalidData` and leaves the backing map completely unchanged;
the theorem holds for both values of `lockOk`, so the length check decides
the outcome before (and regardless of) write-lock acquisition. -/
theorem insert_batch_length_mismatch (lockOk : Bool) (c : DataCategory)
    (keys values : List Bytes) (s : Store)
    (h : keys.length ≠ values.length) :
    insert_batch lockOk c keys values s = (.error .InvalidData, s)
    ∧ ∀ key, (insert_batch lockOk c keys values s).2 key = s key := by
  have hk : (gen_keys c keys).length ≠ values.length := by
    simpa [gen_keys] using h
  refine ⟨?_, ?_⟩ <;> simp [insert_batch, hk]

/-- C2 witness: a concrete mismatched batch insert. -/
theorem insert_batch_length_mismatch_witness :
    insert_batch false .Block [[1]] [] emptyStore
      = (.error .InvalidData, emptyStore) :=
  (insert_batch_length_mismatch false .Block [[1]] [] emptyStore
    (by decide)).1

/-- C5: `get_batch` returns one element per input key, in order, and the
`i`-th element is exactly what `get` returns for the `i`-th key on the same
store: `some` record when present, `none` at that position when absent. -/
theorem get_batch_pointwise (c : DataCategory) (ks : List Bytes) (s : Store) :
    ∃ l, (get_batch true c ks s).1 = .ok l
      ∧ l.length = ks.length
      ∧ ∀ i (hi : i < l.length) (hk : i < ks.length),
          (get true c (ks.get ⟨i, hk⟩) s).1 = .ok (l.get ⟨i, hi⟩) := by
  refine ⟨(gen_keys c ks).map (fun k => s k), rfl, by simp [gen_keys], ?_⟩
  intro i hi hk
  simp [get, gen_keys]

/-- C5 witness: a two-key batch where only the first key is present. -/
theorem get_batch_pointwise_witness :
    ∃ l, (get_batch true .Block [[1], [2]]
            (rawInsert emptyStore (gen_key .Block [1]) [7])).1 = .ok l
      ∧ l.length = ([[1], [2]] : List Bytes).length
      ∧ ∀ i (hi : i < l.length) (hk : i < ([[1], [2]] : List Bytes).length),
          (get true .Block (([[1], [2]] : List Bytes).get ⟨i, hk⟩)
            (rawInsert emptyStore (gen_key .Block [1]) [7])).1
            = .ok (l.get ⟨i, hi⟩) :=
  get_batch_pointwise .Block [[1], [2]]
    (rawInsert emptyStore (gen_key .Block [1]) [7])

/-- C6: after `remove(c,k)` the key is gone (`get` returns `none`,
`contains` returns `false`), and `remove` succeeds on every store, in
particular when the composite key was already absent. -/
theorem remove_then_absent (c : DataCategory) (k : Bytes) (s : Store) :
    (remove true c k s).1 = .ok ()
    ∧ (get true c k (remove true c k s).2).1 = .ok none
    ∧ (contains true c k (remove true c k s).2).1 = .ok false := by
  refine ⟨rfl, ?_, ?_⟩ <;> simp [remove, get, contains, rawRemove]

/-- C7: `remove_batch` succeeds without error; afterwards every composite
key derived from the input list (duplicates and absent keys included) is
absent, and every other key holds exactly the record it held before. -/
theorem remove_batch_removes_exactly (c : DataCategory) (ks : List Bytes)
    (s : Store) :
    (remove_batch true c ks s).1 = .ok ()
    ∧ ∀ key, (remove_batch true c ks s).2 key
        = if key ∈ gen_keys c ks then none else s key := by
  refine ⟨rfl, ?_⟩
  intro key
  simp [remove_batch, removeList_apply]

/-- C10: `insert(c,k,v)` and `remove(c,k)` leave the record (or absence)
at every composite key other than `gen_key c k` exactly as it was. -/
theorem single_key_write_frame (c : DataCategory) (k v : Bytes) (s : Store)
    (key2 : Bytes) (h : key2 ≠ gen_key c k) :
    (insert true c k v s).2 key2 = s key2
    ∧ (remove true c k s).2 key2 = s key2 := by
  constructor <;> simp [insert, remove, rawInsert, rawRemove, h]

/-- C10 witness: a concrete unrelated key is untouched by a write. -/
theorem single_key_write_frame_witness :
    (insert true .Block [1] [2] emptyStore).2 [9] = emptyStore [9]
    ∧ (remove true .Block [1] emptyStore).2 [9] = emptyStore [9] :=
  single_key_write_frame .Block [1] [2] emptyStore [9] (by decide)

/-- Non-overlap of two categories, as the spec words it: neither
category's prefix is a prefix of any composite key of the other. -/
def overlapFree (c1 c2 : DataCategory) : Prop :=
  (∀ k, ¬ tagOf c1 <+: gen_key c2 k) ∧ (∀ k, ¬ tagOf c2 <+: gen_key c1 k)

/-- The key encoder is injective in the raw key, for a fixed category. -/
theorem gen_key_inj (c : DataCategory) (k1 k2 : Bytes)
    (h : gen_key c k1 = gen_key c k2) : k1 = k2 := by
  rw [gen_key_tag, gen_key_tag] at h
  exact List.append_cancel_left h

/-- Overlap-free categories never share a composite key. -/
theorem overlapFree_ne_keys (c1 c2 : DataCategory) (h : overlapFree c1 c2)
    (k1 k2 : Bytes) : gen_key c1 k1 ≠ gen_key c2 k2 := by
  intro he
  have hp : tagOf c1 <+: gen_key c1 k1 := by
    rw [gen_key_tag]
    exact List.prefix_append _ _
  rw [he] at hp
  exact h.1 k2 hp

/-- C8: for categories whose prefixes do not overlap, the same raw key is
stored independently: after inserting under both categories, each `get`
returns its own category's value. -/
theorem distinct_category_independence (c1 c2 : DataCategory)
    (h : overlapFree c1 c2) (k v1 v2 : Bytes) (s : Store) :
    (get true c1 k (insert true c2 k v2 (insert true c1 k v1 s).2).2).1
      = .ok (some v1)
    ∧ (get true c2 k (insert true c2 k v2 (insert true c1 k v1 s).2).2).1
      = .ok (some v2) := by
  have hne : gen_key c1 k ≠ gen_key c2 k := overlapFree_ne_keys c1 c2 h k k
  constructor <;> simp [get, insert, rawInsert, hne]

/-- C8 witness: `Block` and `Receipt` are overlap-free, and the same raw
key under the two categories keeps both values. -/
theorem distinct_category_independence_witness :
    overlapFree .Block .Receipt
    ∧ ((get true .Block [5]
          (insert true .Receipt [5] [2]
            (insert true .Block [5] [1] emptyStore).2).2).1 = .ok (some [1])
      ∧ (get true .Receipt [5]
          (insert true .Receipt [5] [2]
            (insert true .Block [5] [1] emptyStore).2).2).1 = .ok (some [2])) :=
  have hof : overlapFree .Block .Receipt := by
    constructor <;> intro k hp <;> obtain ⟨t, ht⟩ := hp <;>
      rw [gen_key_tag, tagOf_Block, tagOf_Receipt] at ht <;> simp at ht
  ⟨hof, distinct_category_independence .Block .Receipt hof [5] [1] [2] emptyStore⟩

/-- `insertList` over an appended list is sequential composition. -/
theorem insertList_append :
    ∀ (a b : List (Bytes × Bytes)) (s : Store),
      insertList s (a ++ b) = insertList (insertList s a) b := by
  intro a
  induction a with
  | nil => intro b s; rfl
  | cons p rest ih =>
    intro b s
    obtain ⟨k0, v0⟩ := p
    show insertList (rawInsert s k0 v0) (rest ++ b) = _
    rw [ih]
    rfl

/-- A key absent from a pair list is untouched by `insertList`. -/
theorem insertList_not_mem :
    ∀ (pairs : List (Bytes × Bytes)) (s : Store) (key : Bytes),
      key ∉ pairs.map Prod.fst → insertList s pairs key = s key := by
  intro pairs
  induction pairs with
  | nil => intro s key h; rfl
  | cons p rest ih =>
    intro s key h
    obtain ⟨k0, v0⟩ := p
    simp only [List.map_cons, List.mem_cons, not_or] at h
    show insertList (rawInsert s k0 v0) rest key = s key
    rw [ih _ _ h.2]
    simp [rawInsert, h.1]

/-- C9: with equal-length key and value lists, `insert_batch` succeeds,
and when index `j` is the last index carrying the same raw key as index
`i`, the record finally stored under key `i` is the value at index `j`
(later duplicates override earlier ones, applied in input order). -/
theorem insert_batch_last_wins (c : DataCategory) (keys values : List Bytes)
    (s : Store) (hlen : keys.length = values.length)
    (i j : Nat) (hi : i < keys.length) (hj : j < keys.length)
    (hjv : j < values.length)
    (hkey : keys.get ⟨j, hj⟩ = keys.get ⟨i, hi⟩)
    (hlast : ∀ j2 (h2 : j2 < keys.length),
        j < j2 → keys.get ⟨j2, h2⟩ ≠ keys.get ⟨i, hi⟩) :
    (insert_batch true c keys values s).1 = .ok ()
    ∧ (get true c (keys.get ⟨i, hi⟩)
        (insert_batch true c keys values s).2).1
        = .ok (some (values.get ⟨j, hjv⟩)) := by
  have hkslen : (gen_keys c keys).length = values.length := by
    simp [gen_keys, hlen]
  set pairs := (gen_keys c keys).zip values with hpairs
  have hplen : pairs.length = keys.length := by
    simp [hpairs, gen_keys, hlen]
  have hjp : j < pairs.length := by omega
  have hget_pair : pairs.get ⟨j, hjp⟩
      = (gen_key c (keys.get ⟨j, hj⟩), values.get ⟨j, hjv⟩) := by
    simp [hpairs, gen_keys, List.get_eq_getElem]
  have hdrop : gen_key c (keys.get ⟨i, hi⟩)
      ∉ (pairs.drop (j + 1)).map Prod.fst := by
    intro hmem
    have hmap : (pairs.drop (j + 1)).map Prod.fst
        = (gen_keys c keys).drop (j + 1) := by
      rw [List.map_drop, List.map_fst_zip _ _ (le_of_eq hkslen)]
    rw [hmap] at hmem
    obtain ⟨⟨m, hm⟩, hmeq⟩ := List.mem_iff_get.mp hmem
    have hmlen : j + 1 + m < keys.length := by
      have hm2 := hm
      simp [gen_keys] at hm2
      omega
    have hidx : gen_key c (keys.get ⟨j + 1 + m, hmlen⟩)
        = gen_key c (keys.get ⟨i, hi⟩) := by
      rw [← hmeq]
      simp [gen_keys, List.get_eq_getElem]
    exact hlast (j + 1 + m) hmlen (by omega)
      (gen_key_inj c _ _ hidx)
  have hval : insertList s pairs (gen_key c (keys.get ⟨i, hi⟩))
      = some (values.get ⟨j, hjv⟩) := by
    conv_lhs => rw [← List.take_append_drop (j + 1) pairs]
    rw [insertList_append, insertList_not_mem _ _ _ hdrop]
    have htake : pairs.take (j + 1) = pairs.take j ++ [pairs.get ⟨j, hjp⟩] := by
      rw [← List.take_concat_get pairs j hjp, List.concat_eq_append,
        List.get_eq_getElem]
    rw [htake, insertList_append, hget_pair]
    show rawInsert (insertList s (pairs.take j)) _ _ _ = _
    rw [hkey]
    simp [rawInsert]
  have hpost : (insert_batch true c keys values s).2 = insertList s pairs := by
    simp [insert_batch, hkslen, hpairs]
  constructor
  · simp [insert_batch, hkslen]
  · rw [hpost]
    simp only [get]
    exact congrArg Except.ok hval

/-- C9 witness: a batch with a duplicated key; the later value wins. -/
theorem insert_batch_last_wins_witness :
    (insert_batch true .Block [[1], [2], [1]] [[10], [20], [30]]
        emptyStore).1 = .ok ()
    ∧ (get true .Block (([[1], [2], [1]] : List Bytes).get ⟨0, by decide⟩)
        (insert_batch true .Block [[1], [2], [1]] [[10], [20], [30]]
          emptyStore).2).1
        = .ok (some (([[10], [20], [30]] : List Bytes).get ⟨2, by decide⟩)) :=
  insert_batch_last_wins .Block [[1], [2], [1]] [[10], [20], [30]] emptyStore
    (by decide) 0 2 (by decide) (by decide) (by decide) (by decide)
    (by intro j2 h2 hgt; simp at h2; omega)

end Muta
